import Mathlib

/-!
Shallow embedding of the algorithmic core of the `psktam/blender-addons`
repository, together with proofs of the specification claims.

`ImageProcessing` embeds `src/image_processing.py`:
* `squarify` models `_squarify` (the row-packing planner),
* `validateDims` models the divisibility check in `make_spritesheets`.

`Framemaker` embeds the colour mathematics of `src/framemaker.py`
(`rgb2xyz`, `xyz2lab`, `rgb2lab`) and the background segmentation rule
(`norms < chroma_pct` in `make_anim_sheet`), with real numbers standing
for Python floats.
-/

namespace ImageProcessing

/-- A rectangle size `(width, height)`, as produced by `img.size`. -/
abbrev Size := Nat × Nat

/-- The key of the first Python sort: `sorted(zipped, key=lambda e: e[0][0])`
(ascending width).  Python's `sorted` is a stable sort by the key; the
embedding uses the stable `List.insertionSort`. -/
def byWidth (p q : Size × Nat) : Prop := p.1.1 ≤ q.1.1

instance : DecidableRel byWidth := fun p q => Nat.decLe p.1.1 q.1.1

/-- The key of the second Python sort: `sorted(zipped, key=lambda e: e[0][1])`
(ascending height). -/
def byHeight (p q : Size × Nat) : Prop := p.1.2 ≤ q.1.2

instance : DecidableRel byHeight := fun p q => Nat.decLe p.1.2 q.1.2

/-- Lines 106-110 of `image_processing.py`: zip the sizes with their indices,
stable-sort by width, then stable-sort by height.  The result is the pair
sequence `zip(sizes, idx_array)` after both sorts. -/
def sortZipped (sizes : List Size) : List (Size × Nat) :=
  List.insertionSort byHeight
    (List.insertionSort byWidth (sizes.zip (List.range sizes.length)))

/-- The mutable locals of the packing walk in `_squarify`
(`current_sheet`, `current_row`, `current_row_width`, `max_height`,
`current_height`, `max_width`). -/
structure BuildState where
  sheet : List (List Nat)
  curRow : List Nat
  curWidth : Nat
  curMaxH : Nat
  height : Nat
  maxWidth : Nat
deriving Repr, DecidableEq

/-- Lines 128-139 of `image_processing.py`: walk the sorted rectangles,
accumulating a current row and closing it whenever the accumulated width
reaches the budget (`current_row_width >= row_width`). -/
def buildWalk (budget : Nat) : List (Size × Nat) → BuildState → BuildState
  | [], st => st
  | ((w, h), idx) :: rest, st =>
    let maxH := max st.curMaxH h
    let cw := st.curWidth + w
    let row := st.curRow ++ [idx]
    if budget ≤ cw then
      buildWalk budget rest
        ⟨st.sheet ++ [row], [], 0, 0, st.height + maxH, max st.maxWidth cw⟩
    else
      buildWalk budget rest ⟨st.sheet, row, cw, maxH, st.height, st.maxWidth⟩

/-- Lines 121-144 of `image_processing.py`: run the walk from the empty
state and close the final partial row if it is nonempty.  Returns
`(current_sheet, max_width, current_height)`. -/
def buildSheet (budget : Nat) (l : List (Size × Nat)) :
    List (List Nat) × Nat × Nat :=
  let st := buildWalk budget l ⟨[], [], 0, 0, 0, 0⟩
  if st.curRow.isEmpty then (st.sheet, st.maxWidth, st.height)
  else (st.sheet ++ [st.curRow], st.maxWidth, st.height + st.curMaxH)

/-- `row_width = sum([sizes[idx][0] for idx in range(row_split)])`
(line 119): the sum of the widths of the first `r` rectangles of the
sorted sequence. -/
def widthBudget (l : List (Size × Nat)) (r : Nat) : Nat :=
  ((l.take r).map (fun e => e.1.1)).sum

/-- `abs(max_width - current_height)` (line 146).  Python computes the
absolute difference of two (unbounded) integers. -/
def unsq (w h : Nat) : Nat := Int.natAbs ((w : Int) - (h : Int))

/-- Lines 118-156 of `image_processing.py`: the search over
`row_split in range(len(sizes), 0, -1)`.  The counter argument is the
current value of `row_split`; `best` is `(output_array, output_size)` and
`bestU` is `min_unsquareness`, where `none` stands for the initial
`float("inf")`.  A candidate whose unsquareness strictly exceeds the best
so far breaks out of the loop; otherwise it becomes the new best. -/
def searchLoop (l : List (Size × Nat)) :
    Nat → List (List Nat) × Nat × Nat → Option Nat → List (List Nat) × Nat × Nat
  | 0, best, _ => best
  | k + 1, _, none =>
    searchLoop l k (buildSheet (widthBudget l (k + 1)) l)
      (some (unsq (buildSheet (widthBudget l (k + 1)) l).2.1
        (buildSheet (widthBudget l (k + 1)) l).2.2))
  | k + 1, best, some bu =>
    if bu < unsq (buildSheet (widthBudget l (k + 1)) l).2.1
        (buildSheet (widthBudget l (k + 1)) l).2.2 then best
    else
      searchLoop l k (buildSheet (widthBudget l (k + 1)) l)
        (some (unsq (buildSheet (widthBudget l (k + 1)) l).2.1
          (buildSheet (widthBudget l (k + 1)) l).2.2))

/-- `_squarify(sizes)` (lines 100-157).  On an empty input the Python code
raises `ValueError` at `sizes, idx_array = zip(*zipped)` (unpacking an
empty `zip` into two names), modelled here as `none`.  Otherwise the
initial best is the single row of all sorted indices with
`output_size = (max(widths), max(heights))` (lines 113-117), and the
search loop runs from `len(sizes)` down to `1`. -/
def squarify (sizes : List Size) : Option (List (List Nat) × Nat × Nat) :=
  if sizes = [] then none
  else
    let l := sortZipped sizes
    let init : List (List Nat) × Nat × Nat :=
      ([l.map (fun e => e.2)],
        (sizes.map (fun p => p.1)).foldr max 0,
        (sizes.map (fun p => p.2)).foldr max 0)
    some (searchLoop l sizes.length init none)

/-- Width of a row of the plan: the sum of the widths of its member
rectangles (looked up by original index). -/
def rowWidth (sizes : List Size) (r : List Nat) : Nat :=
  (r.map (fun i => (sizes.getD i (0, 0)).1)).sum

/-- Height of a row of the plan: the maximum height of its member
rectangles (looked up by original index). -/
def rowHeight (sizes : List Size) (r : List Nat) : Nat :=
  (r.map (fun i => (sizes.getD i (0, 0)).2)).foldr max 0

/-- Python's `min` over a nonempty list (lines 62-63 of
`image_processing.py`); the value on `[]` is irrelevant (Python raises). -/
def listMin : List Nat → Nat
  | [] => 0
  | [a] => a
  | a :: b :: t => min a (listMin (b :: t))

/-- Lines 62-74 of `image_processing.py`: compute the smallest width and
height and raise `ValueError` (modelled as `some (smallest_width,
smallest_height)`, the two numbers the error message reports) when some
width is not divisible by the smallest width or some height is not
divisible by the smallest height. -/
def validateDims (sizes : List Size) : Option (Nat × Nat) :=
  let mw := listMin (sizes.map (fun p => p.1))
  let mh := listMin (sizes.map (fun p => p.2))
  if (sizes.any fun p => decide (0 < p.1 % mw)) ||
      (sizes.any fun p => decide (0 < p.2 % mh)) then
    some (mw, mh)
  else
    none

/-- Ceiling division `⌈a / b⌉`, written the way `_squarify`'s row count
arises: `a / b` rounded up exactly when the division is not exact. -/
def cdiv (a b : Nat) : Nat := a / b + if a % b = 0 then 0 else 1

/-- `⌈√n⌉` for `n ≥ 1`, via `Nat.sqrt`: the least `c` with `n ≤ c * c`
(see `ceilSqrt_spec`). -/
def ceilSqrt (n : Nat) : Nat := Nat.sqrt (n - 1) + 1

/-! ### Generic list helpers -/

lemma foldr_max_init (xs : List Nat) (b : Nat) :
    xs.foldr max b = max (xs.foldr max 0) b := by
  induction xs with
  | nil => simp
  | cons a t ih => simp [List.foldr, ih, Nat.max_assoc]

lemma le_foldr_max {a : Nat} {xs : List Nat} (h : a ∈ xs) :
    a ≤ xs.foldr max 0 := by
  induction xs with
  | nil => cases h
  | cons b t ih =>
    rcases List.mem_cons.mp h with rfl | h'
    · exact Nat.le_max_left _ _
    · exact le_trans (ih h') (Nat.le_max_right _ _)

lemma foldr_max_attained {xs : List Nat} (h : xs ≠ []) :
    xs.foldr max 0 ∈ xs := by
  induction xs with
  | nil => exact absurd rfl h
  | cons a t ih =>
    rcases List.eq_nil_or_concat t with rfl | _
    · simp
    · have ht : t ≠ [] := by
        rintro rfl
        simp_all
      rcases Nat.le_total a (t.foldr max 0) with h1 | h1
      · have : (a :: t).foldr max 0 = t.foldr max 0 := by
          simp [List.foldr, Nat.max_eq_right h1]
        rw [this]
        exact List.mem_cons_of_mem _ (ih ht)
      · have : (a :: t).foldr max 0 = a := by
          simp [List.foldr, Nat.max_eq_left h1]
        rw [this]
        exact List.mem_cons_self _ _

lemma rowWidth_append (sizes : List Size) (r : List Nat) (i : Nat) :
    rowWidth sizes (r ++ [i]) = rowWidth sizes r + (sizes.getD i (0, 0)).1 := by
  simp [rowWidth]

lemma rowHeight_append (sizes : List Size) (r : List Nat) (i : Nat) :
    rowHeight sizes (r ++ [i]) = max (rowHeight sizes r) (sizes.getD i (0, 0)).2 := by
  simp only [rowHeight, List.map_append, List.foldr_append, List.map_cons,
    List.map_nil, List.foldr_cons, List.foldr_nil, Nat.max_zero]
  rw [foldr_max_init]

/-! ### The sorted sequence -/

instance : IsTotal (Size × Nat) byWidth := ⟨fun a b => Nat.le_total a.1.1 b.1.1⟩

instance : IsTrans (Size × Nat) byWidth := ⟨fun _ _ _ => Nat.le_trans⟩

instance : IsTotal (Size × Nat) byHeight := ⟨fun a b => Nat.le_total a.1.2 b.1.2⟩

instance : IsTrans (Size × Nat) byHeight := ⟨fun _ _ _ => Nat.le_trans⟩

lemma sortZipped_perm (sizes : List Size) :
    (sortZipped sizes).Perm (sizes.zip (List.range sizes.length)) :=
  (List.perm_insertionSort _ _).trans (List.perm_insertionSort _ _)

lemma sortZipped_length (sizes : List Size) :
    (sortZipped sizes).length = sizes.length := by
  simpa using (sortZipped_perm sizes).length_eq

lemma mem_zip_range {sizes : List Size} {p : Size × Nat}
    (h : p ∈ sizes.zip (List.range sizes.length)) :
    p.2 < sizes.length ∧ sizes.getD p.2 (0, 0) = p.1 := by
  rcases List.mem_iff_getElem.mp h with ⟨n, hn, hp⟩
  have hlen : (sizes.zip (List.range sizes.length)).length = sizes.length := by
    simp
  rw [hlen] at hn
  have hzip : (sizes.zip (List.range sizes.length))[n] = (sizes[n], n) := by
    rw [List.getElem_zip, List.getElem_range]
  rw [hzip] at hp
  have h2 : p.2 = n := by rw [← hp]
  have h1 : p.1 = sizes[n] := by rw [← hp]
  refine ⟨h2 ▸ hn, ?_⟩
  rw [h2, h1, List.getD_eq_getElem?_getD, List.getElem?_eq_getElem hn]
  rfl

lemma sortZipped_coh {sizes : List Size} {p : Size × Nat} (h : p ∈ sortZipped sizes) :
    p.2 < sizes.length ∧ sizes.getD p.2 (0, 0) = p.1 :=
  mem_zip_range ((sortZipped_perm sizes).mem_iff.mp h)

lemma sortZipped_map_snd_perm (sizes : List Size) :
    ((sortZipped sizes).map (fun e => e.2)).Perm (List.range sizes.length) := by
  have h1 := (sortZipped_perm sizes).map (fun e : Size × Nat => e.2)
  have h2 : (sizes.zip (List.range sizes.length)).map (fun e : Size × Nat => e.2)
      = List.range sizes.length := by
    have := List.map_snd_zip sizes (List.range sizes.length) (by simp)
    simpa using this
  rw [h2] at h1
  exact h1

lemma sortZipped_nodup (sizes : List Size) : (sortZipped sizes).Nodup := by
  have hz : (sizes.zip (List.range sizes.length)).Nodup := by
    have hm : (sizes.zip (List.range sizes.length)).map (fun e : Size × Nat => e.2)
        = List.range sizes.length := by
      have := List.map_snd_zip sizes (List.range sizes.length) (by simp)
      simpa using this
    have : ((sizes.zip (List.range sizes.length)).map
        (fun e : Size × Nat => e.2)).Nodup := by
      rw [hm]; exact List.nodup_range _
    exact this.of_map _
  exact ((sortZipped_perm sizes).nodup_iff).mpr hz

lemma sortZipped_sorted_height (sizes : List Size) :
    List.Pairwise byHeight (sortZipped sizes) :=
  List.sorted_insertionSort byHeight _

lemma mem_pair_sublist {α : Type _} {x y : α} {l : List α}
    (hx : x ∈ l) (hy : y ∈ l) (hxy : x ≠ y) :
    [x, y].Sublist l ∨ [y, x].Sublist l := by
  induction l with
  | nil => cases hx
  | cons a t ih =>
    rcases List.mem_cons.mp hx with rfl | hxt
    · have hyt : y ∈ t := by
        rcases List.mem_cons.mp hy with rfl | h
        · exact absurd rfl hxy
        · exact h
      exact Or.inl ((List.singleton_sublist.mpr hyt).cons₂ x)
    · rcases List.mem_cons.mp hy with rfl | hyt
      · exact Or.inr ((List.singleton_sublist.mpr hxt).cons₂ y)
      · exact (ih hxt hyt).imp (List.Sublist.cons a) (List.Sublist.cons a)

lemma pair_sublist_antisymm {α : Type _} {x y : α} :
    ∀ {l : List α}, l.Nodup → [x, y].Sublist l → [y, x].Sublist l → x = y := by
  intro l
  induction l with
  | nil =>
    intro _ h1 _
    exact absurd (List.sublist_nil.mp h1) (by simp)
  | cons a t ih =>
    intro hnd h1 h2
    have hand := List.nodup_cons.mp hnd
    cases h1 with
    | cons _ h1' =>
      cases h2 with
      | cons _ h2' => exact ih hand.2 h1' h2'
      | cons₂ _ h2' =>
        exact absurd (h1'.subset (by simp)) hand.1
    | cons₂ _ h1' =>
      cases h2 with
      | cons _ h2' =>
        exact absurd (h2'.subset (by simp)) hand.1
      | cons₂ _ h2' => rfl

/-- The combined effect of the two stable sorts: the result is ordered
ascending by height, with ties broken ascending by width. -/
lemma sortZipped_pairwise_lex (sizes : List Size) :
    List.Pairwise
      (fun p q : Size × Nat => p.1.2 < q.1.2 ∨ (p.1.2 = q.1.2 ∧ p.1.1 ≤ q.1.1))
      (sortZipped sizes) := by
  rw [List.pairwise_iff_forall_sublist]
  intro x y hxy
  have hh : byHeight x y :=
    List.pairwise_iff_forall_sublist.mp (sortZipped_sorted_height sizes) hxy
  rcases Nat.lt_or_ge x.1.2 y.1.2 with hlt | hge
  · exact Or.inl hlt
  have heq : x.1.2 = y.1.2 := Nat.le_antisymm hh hge
  refine Or.inr ⟨heq, ?_⟩
  by_contra hw
  have hwlt : y.1.1 < x.1.1 := Nat.lt_of_not_le hw
  have hne : x ≠ y := by
    intro h
    rw [h] at hwlt
    exact Nat.lt_irrefl _ hwlt
  set l1 := List.insertionSort byWidth (sizes.zip (List.range sizes.length)) with hl1
  have hperm : (sortZipped sizes).Perm l1 := List.perm_insertionSort byHeight l1
  have hx1 : x ∈ l1 := hperm.subset (hxy.subset (by simp))
  have hy1 : y ∈ l1 := hperm.subset (hxy.subset (by simp))
  rcases mem_pair_sublist hx1 hy1 hne with hs | hs
  · have : byWidth x y :=
      List.pairwise_iff_forall_sublist.mp (List.sorted_insertionSort byWidth _) hs
    exact Nat.lt_irrefl _ (Nat.lt_of_le_of_lt this hwlt)
  · have hyx : List.Pairwise byHeight [y, x] := by
      refine List.pairwise_cons.mpr ⟨?_, by simp⟩
      intro b hb
      rcases List.mem_singleton.mp hb with rfl
      exact le_of_eq heq.symm
    have hs2 : [y, x].Sublist (sortZipped sizes) :=
      List.sublist_insertionSort hyx hs
    exact hne (pair_sublist_antisymm (sortZipped_nodup sizes) hxy hs2)

/-! ### Invariants of the packing walk -/

lemma buildWalk_flatten (budget : Nat) :
    ∀ (l : List (Size × Nat)) (st : BuildState),
    (buildWalk budget l st).sheet.flatten ++ (buildWalk budget l st).curRow
      = st.sheet.flatten ++ st.curRow ++ l.map (fun e => e.2) := by
  intro l
  induction l with
  | nil => intro st; simp [buildWalk]
  | cons e rest ih =>
    intro st
    rcases e with ⟨⟨w, h⟩, idx⟩
    simp only [buildWalk]
    by_cases hc : budget ≤ st.curWidth + w
    · rw [if_pos hc, ih]
      simp
    · rw [if_neg hc, ih]
      simp

lemma buildWalk_rows_ne (budget : Nat) :
    ∀ (l : List (Size × Nat)) (st : BuildState),
    (∀ r ∈ st.sheet, r ≠ []) →
    ∀ r ∈ (buildWalk budget l st).sheet, r ≠ [] := by
  intro l
  induction l with
  | nil => intro st hst; exact hst
  | cons e rest ih =>
    intro st hst
    rcases e with ⟨⟨w, h⟩, idx⟩
    simp only [buildWalk]
    by_cases hc : budget ≤ st.curWidth + w
    · rw [if_pos hc]
      refine ih _ ?_
      intro r hr
      rcases List.mem_append.mp hr with hr' | hr'
      · exact hst r hr'
      · rcases List.mem_singleton.mp hr' with rfl
        simp
    · rw [if_neg hc]
      exact ih _ hst

/-- The numeric fields of the walk state stay in sync with the rows built
so far: `current_row_width` is the current row's width, `max_height` its
height, `current_height` the sum of closed row heights, `max_width` the
max of closed row widths, every closed row has width at least the budget
and is nonempty, and the current row's width is below the budget. -/
lemma buildWalk_inv (sizes : List Size) (budget : Nat) :
    ∀ (l : List (Size × Nat)), (∀ e ∈ l, sizes.getD e.2 (0, 0) = e.1) →
    ∀ st : BuildState,
    st.curWidth = rowWidth sizes st.curRow →
    st.curMaxH = rowHeight sizes st.curRow →
    st.height = (st.sheet.map (rowHeight sizes)).sum →
    st.maxWidth = (st.sheet.map (rowWidth sizes)).foldr max 0 →
    (∀ r ∈ st.sheet, budget ≤ rowWidth sizes r) →
    st.curWidth < budget →
    (buildWalk budget l st).curWidth = rowWidth sizes (buildWalk budget l st).curRow ∧
    (buildWalk budget l st).curMaxH = rowHeight sizes (buildWalk budget l st).curRow ∧
    (buildWalk budget l st).height
      = ((buildWalk budget l st).sheet.map (rowHeight sizes)).sum ∧
    (buildWalk budget l st).maxWidth
      = ((buildWalk budget l st).sheet.map (rowWidth sizes)).foldr max 0 ∧
    (∀ r ∈ (buildWalk budget l st).sheet, budget ≤ rowWidth sizes r) ∧
    (buildWalk budget l st).curWidth < budget := by
  intro l
  induction l with
  | nil =>
    intro _ st h1 h2 h3 h4 h5 h6
    exact ⟨h1, h2, h3, h4, h5, h6⟩
  | cons e rest ih =>
    intro hcoh st h1 h2 h3 h4 h5 h6
    rcases e with ⟨⟨w, h⟩, idx⟩
    have hidx : sizes.getD idx (0, 0) = (w, h) := hcoh _ (List.mem_cons_self _ _)
    have hcoh' : ∀ e ∈ rest, sizes.getD e.2 (0, 0) = e.1 := fun e he =>
      hcoh e (List.mem_cons_of_mem _ he)
    have hroww : rowWidth sizes (st.curRow ++ [idx]) = st.curWidth + w := by
      rw [rowWidth_append, hidx, h1]
    have hrowh : rowHeight sizes (st.curRow ++ [idx]) = max st.curMaxH h := by
      rw [rowHeight_append, hidx, h2]
    simp only [buildWalk]
    by_cases hc : budget ≤ st.curWidth + w
    · rw [if_pos hc]
      refine ih hcoh' _ ?_ ?_ ?_ ?_ ?_ ?_
      · simp [rowWidth]
      · simp [rowHeight]
      · simp only [List.map_append, List.sum_append, List.map_cons, List.map_nil,
          List.sum_cons, List.sum_nil]
        rw [h3, hrowh]
        simp
      · simp only [List.map_append, List.foldr_append, List.map_cons, List.map_nil,
          List.foldr_cons, List.foldr_nil]
        rw [Nat.max_zero, foldr_max_init, h4, hroww]
      · intro r hr
        rcases List.mem_append.mp hr with hr' | hr'
        · exact h5 r hr'
        · rcases List.mem_singleton.mp hr' with rfl
          rw [hroww]
          exact hc
      · exact Nat.lt_of_le_of_lt (Nat.zero_le st.curWidth) h6
    · rw [if_neg hc]
      exact ih hcoh' _ hroww.symm hrowh.symm h3 h4 h5 (Nat.lt_of_not_le hc)

/-- The rows of a candidate sheet list exactly the walked indices, in
walk order. -/
lemma buildSheet_flatten (budget : Nat) (l : List (Size × Nat)) :
    (buildSheet budget l).1.flatten = l.map (fun e => e.2) := by
  have h := buildWalk_flatten budget l ⟨[], [], 0, 0, 0, 0⟩
  simp only [List.flatten_nil, List.nil_append] at h
  unfold buildSheet
  by_cases he : (buildWalk budget l ⟨[], [], 0, 0, 0, 0⟩).curRow.isEmpty
  · rw [if_pos he]
    rw [List.isEmpty_iff] at he
    rw [he, List.append_nil] at h
    exact h
  · rw [if_neg he]
    simp only [List.flatten_append, List.flatten_cons, List.flatten_nil,
      List.append_nil]
    exact h

/-- Every row of a candidate sheet is nonempty. -/
lemma buildSheet_rows_ne (budget : Nat) (l : List (Size × Nat)) :
    ∀ r ∈ (buildSheet budget l).1, r ≠ [] := by
  have hsheet := buildWalk_rows_ne budget l ⟨[], [], 0, 0, 0, 0⟩ (by simp)
  unfold buildSheet
  by_cases he : (buildWalk budget l ⟨[], [], 0, 0, 0, 0⟩).curRow.isEmpty
  · rw [if_pos he]
    exact hsheet
  · rw [if_neg he]
    intro r hr
    rcases List.mem_append.mp hr with hr' | hr'
    · exact hsheet r hr'
    · rcases List.mem_singleton.mp hr' with rfl
      exact fun hnil => he (by rw [hnil]; rfl)

/-- The second output of `_squarify`'s inner loop: `current_height` is the
sum of the row heights of the candidate sheet. -/
lemma buildSheet_height (sizes : List Size) (budget : Nat) (l : List (Size × Nat))
    (hcoh : ∀ e ∈ l, sizes.getD e.2 (0, 0) = e.1) (hb : 0 < budget) :
    (buildSheet budget l).2.2 = ((buildSheet budget l).1.map (rowHeight sizes)).sum := by
  have h := buildWalk_inv sizes budget l hcoh ⟨[], [], 0, 0, 0, 0⟩
    (by simp [rowWidth]) (by simp [rowHeight]) (by simp) (by simp) (by simp) hb
  obtain ⟨_, h2, h3, _, _, _⟩ := h
  unfold buildSheet
  by_cases he : (buildWalk budget l ⟨[], [], 0, 0, 0, 0⟩).curRow.isEmpty
  · rw [if_pos he]
    exact h3
  · rw [if_neg he]
    simp only [List.map_append, List.sum_append, List.map_cons, List.map_nil,
      List.sum_cons, List.sum_nil]
    rw [h3, h2]
    simp

/-- The first output of `_squarify`'s inner loop: even though `max_width`
only tracks the closed rows, it equals the maximum row width of the whole
candidate sheet, because a trailing partial row is always narrower than
the budget while every closed row is at least as wide. -/
lemma buildSheet_width (sizes : List Size) (budget : Nat) (l : List (Size × Nat))
    (hcoh : ∀ e ∈ l, sizes.getD e.2 (0, 0) = e.1) (hb : 0 < budget)
    (hbt : budget ≤ (l.map (fun e => e.1.1)).sum) :
    (buildSheet budget l).2.1
      = ((buildSheet budget l).1.map (rowWidth sizes)).foldr max 0 := by
  obtain ⟨h1, -, -, h4, h5, h6⟩ := buildWalk_inv sizes budget l hcoh ⟨[], [], 0, 0, 0, 0⟩
    (by simp [rowWidth]) (by simp [rowHeight]) (by simp) (by simp) (by simp) hb
  have hflat := buildWalk_flatten budget l ⟨[], [], 0, 0, 0, 0⟩
  simp only [List.flatten_nil, List.nil_append] at hflat
  have htot : rowWidth sizes (l.map (fun e => e.2))
      = (l.map (fun e => e.1.1)).sum := by
    unfold rowWidth
    rw [List.map_map]
    congr 1
    refine List.map_congr_left ?_
    intro e he
    show (sizes.getD e.2 (0, 0)).1 = e.1.1
    rw [hcoh e he]
  unfold buildSheet
  generalize hgen : buildWalk budget l ⟨[], [], 0, 0, 0, 0⟩ = st at h1 h4 h5 h6 hflat ⊢
  have hsheet_ne : st.sheet ≠ [] := by
    intro hnil
    rw [hnil] at hflat
    simp only [List.flatten_nil, List.nil_append] at hflat
    have hW : st.curWidth = (l.map (fun e => e.1.1)).sum := by
      rw [h1, hflat]
      exact htot
    omega
  by_cases he : st.curRow.isEmpty
  · rw [if_pos he]
    exact h4
  · rw [if_neg he]
    simp only [List.map_append, List.foldr_append, List.map_cons, List.map_nil,
      List.foldr_cons, List.foldr_nil, Nat.max_zero]
    rw [foldr_max_init, h4]
    have hcur : rowWidth sizes st.curRow < budget := by
      rw [← h1]; exact h6
    obtain ⟨r0, hr0⟩ := List.exists_mem_of_ne_nil _ hsheet_ne
    have hr0w : budget ≤ rowWidth sizes r0 := h5 r0 hr0
    have hmem : rowWidth sizes r0 ∈ st.sheet.map (rowWidth sizes) :=
      List.mem_map_of_mem _ hr0
    have hbig : budget ≤ (st.sheet.map (rowWidth sizes)).foldr max 0 :=
      le_trans hr0w (le_foldr_max hmem)
    exact (Nat.max_eq_left (le_trans (Nat.le_of_lt hcur) hbig)).symm

/-! ### The search over row counts -/

/-- Whatever the search returns is either the best plan it was given or a
candidate sheet built at some budget index between 1 and the counter. -/
lemma searchLoop_result (l : List (Size × Nat)) :
    ∀ (k : Nat) (best : List (List Nat) × Nat × Nat) (bu : Option Nat),
    searchLoop l k best bu = best ∨
      ∃ r, 1 ≤ r ∧ r ≤ k ∧ searchLoop l k best bu = buildSheet (widthBudget l r) l := by
  intro k
  induction k with
  | zero => intro best bu; exact Or.inl rfl
  | succ n ih =>
    intro best bu
    rcases bu with _ | bu
    · simp only [searchLoop]
      rcases ih (buildSheet (widthBudget l (n + 1)) l) (some _) with h | ⟨r, hr1, hr2, hr⟩
      · exact Or.inr ⟨n + 1, Nat.le_add_left _ _, Nat.le_refl _, h⟩
      · exact Or.inr ⟨r, hr1, Nat.le_succ_of_le hr2, hr⟩
    · simp only [searchLoop]
      by_cases hlt : bu < unsq (buildSheet (widthBudget l (n + 1)) l).2.1
        (buildSheet (widthBudget l (n + 1)) l).2.2
      · rw [if_pos hlt]
        exact Or.inl rfl
      · rw [if_neg hlt]
        rcases ih (buildSheet (widthBudget l (n + 1)) l) (some _) with h | ⟨r, hr1, hr2, hr⟩
        · exact Or.inr ⟨n + 1, Nat.le_add_left _ _, Nat.le_refl _, h⟩
        · exact Or.inr ⟨r, hr1, Nat.le_succ_of_le hr2, hr⟩

/-- Starting from `min_unsquareness = inf`, the first candidate is always
accepted, so the initial best plan is never returned: the result is a
candidate sheet. -/
lemma searchLoop_result_none (l : List (Size × Nat)) (k : Nat)
    (best : List (List Nat) × Nat × Nat) (hk : 0 < k) :
    ∃ r, 1 ≤ r ∧ r ≤ k ∧ searchLoop l k best none = buildSheet (widthBudget l r) l := by
  rcases k with _ | n
  · exact absurd hk (Nat.lt_irrefl 0)
  simp only [searchLoop]
  rcases searchLoop_result l n (buildSheet (widthBudget l (n + 1)) l)
      (some (unsq (buildSheet (widthBudget l (n + 1)) l).2.1
        (buildSheet (widthBudget l (n + 1)) l).2.2)) with h | ⟨r, hr1, hr2, hr⟩
  · exact ⟨n + 1, Nat.le_add_left _ _, Nat.le_refl _, h⟩
  · exact ⟨r, hr1, Nat.le_succ_of_le hr2, hr⟩

/-- Any plan returned by `_squarify` on a nonempty input is a candidate
sheet built at some budget index `r ∈ [1, N]` over the sorted sequence. -/
lemma squarify_eq_candidate {sizes : List Size} {plan : List (List Nat) × Nat × Nat}
    (h : squarify sizes = some plan) :
    ∃ r, 1 ≤ r ∧ r ≤ sizes.length ∧
      plan = buildSheet (widthBudget (sortZipped sizes) r) (sortZipped sizes) := by
  by_cases hne : sizes = []
  · rw [hne] at h
    simp [squarify] at h
  · have hlen : 0 < sizes.length := List.length_pos.mpr hne
    unfold squarify at h
    rw [if_neg hne] at h
    obtain ⟨r, hr1, hr2, hr⟩ := searchLoop_result_none (sortZipped sizes) sizes.length
      ([(sortZipped sizes).map (fun e => e.2)],
        (sizes.map (fun p => p.1)).foldr max 0,
        (sizes.map (fun p => p.2)).foldr max 0) hlen
    refine ⟨r, hr1, hr2, ?_⟩
    have := Option.some.inj h
    rw [← this, hr]

/-- The widths occurring in the sorted sequence are positive whenever all
input widths are. -/
lemma sortZipped_width_pos {sizes : List Size}
    (hpos : ∀ p ∈ sizes, 0 < p.1 ∧ 0 < p.2) :
    ∀ e ∈ sortZipped sizes, 0 < e.1.1 := by
  intro e he
  obtain ⟨hlt, hget⟩ := sortZipped_coh he
  have hmem : sizes.getD e.2 (0, 0) ∈ sizes := by
    rw [List.getD_eq_getElem?_getD, List.getElem?_eq_getElem hlt]
    exact List.getElem_mem _
  have := (hpos _ hmem).1
  rw [hget] at this
  exact this

/-- With positive widths, every budget index `r ∈ [1, N]` yields a positive
budget not exceeding the total width. -/
lemma widthBudget_bounds {sizes : List Size} {r : Nat}
    (hpos : ∀ p ∈ sizes, 0 < p.1 ∧ 0 < p.2) (hr1 : 1 ≤ r)
    (hr2 : r ≤ sizes.length) :
    0 < widthBudget (sortZipped sizes) r ∧
      widthBudget (sortZipped sizes) r
        ≤ ((sortZipped sizes).map (fun e => e.1.1)).sum := by
  constructor
  · unfold widthBudget
    have hlen : (sortZipped sizes).length = sizes.length := sortZipped_length sizes
    have htk : ((sortZipped sizes).take r) ≠ [] := by
      have : 0 < ((sortZipped sizes).take r).length := by
        rw [List.length_take, hlen]
        omega
      exact List.length_pos.mp this
    obtain ⟨e, he⟩ := List.exists_mem_of_ne_nil _ htk
    have hep : 0 < e.1.1 :=
      sortZipped_width_pos hpos e (List.mem_of_mem_take he)
    have hmem : e.1.1 ∈ ((sortZipped sizes).take r).map (fun e => e.1.1) :=
      List.mem_map_of_mem (fun e : Size × Nat => e.1.1) he
    exact Nat.lt_of_lt_of_le hep
      (List.single_le_sum (by intro x _; exact Nat.zero_le x) _ hmem)
  · unfold widthBudget
    rw [List.map_take]
    have hsplit : ((sortZipped sizes).map (fun e => e.1.1)).sum
        = (((sortZipped sizes).map (fun e => e.1.1)).take r).sum
          + (((sortZipped sizes).map (fun e => e.1.1)).drop r).sum := by
      rw [← List.sum_append, List.take_append_drop]
    rw [hsplit]
    exact Nat.le_add_right _ _

/-! ### Counting helpers for the partition claim -/

lemma countP_mem_zero (i : Nat) :
    ∀ R : List (List Nat), (R.map (List.count i)).sum = 0 →
    R.countP (fun r => decide (i ∈ r)) = 0 := by
  intro R
  induction R with
  | nil => simp
  | cons r R' ih =>
    intro h
    simp only [List.map_cons, List.sum_cons] at h
    have h1 : r.count i = 0 := by omega
    have h2 := ih (by omega)
    rw [List.countP_cons, h2]
    have hni : i ∉ r := List.count_eq_zero.mp h1
    simp [hni]

lemma countP_mem_one (i : Nat) :
    ∀ R : List (List Nat), (R.map (List.count i)).sum = 1 →
    R.countP (fun r => decide (i ∈ r)) = 1 := by
  intro R
  induction R with
  | nil => simp
  | cons r R' ih =>
    intro h
    simp only [List.map_cons, List.sum_cons] at h
    rw [List.countP_cons]
    rcases Nat.eq_zero_or_pos (r.count i) with hz | hp
    · have hni : i ∉ r := List.count_eq_zero.mp hz
      have := ih (by omega)
      simp [hni, this]
    · have hrest : (R'.map (List.count i)).sum = 0 := by omega
      have hmem : i ∈ r := List.count_pos_iff.mp hp
      have := countP_mem_zero i R' hrest
      simp [hmem, this]

/-! ### Row-chunk monotonicity for the row-height claim -/

lemma chunks_max_mono (f : Nat → Nat) :
    ∀ R : List (List Nat), (∀ r ∈ R, r ≠ []) →
    (R.flatten.map f).Pairwise (fun a b => a ≤ b) →
    (R.map (fun r => (r.map f).foldr max 0)).Pairwise (fun a b => a ≤ b) := by
  intro R
  induction R with
  | nil => intro _ _; simp
  | cons r R' ih =>
    intro hne hp
    simp only [List.flatten_cons, List.map_append] at hp
    have hsplit := List.pairwise_append.mp hp
    have hp2 := hsplit.2.1
    have hcross := hsplit.2.2
    rw [List.map_cons, List.pairwise_cons]
    constructor
    · intro b hb
      rcases List.mem_map.mp hb with ⟨r', hr', rfl⟩
      have hrne : r ≠ [] := hne r (List.mem_cons_self _ _)
      have hrne' : r' ≠ [] := hne r' (List.mem_cons_of_mem _ hr')
      have hmap_ne : r.map f ≠ [] := by
        intro hnil
        exact hrne (List.map_eq_nil_iff.mp hnil)
      have hatt : (r.map f).foldr max 0 ∈ r.map f := foldr_max_attained hmap_ne
      obtain ⟨y, hy⟩ := List.exists_mem_of_ne_nil _ hrne'
      have hy1 : f y ∈ r'.map f := List.mem_map_of_mem f hy
      have hy2 : f y ∈ R'.flatten.map f := by
        refine List.mem_map_of_mem f ?_
        exact List.mem_flatten.mpr ⟨r', hr', hy⟩
      have h1 : (r.map f).foldr max 0 ≤ f y := hcross _ hatt _ hy2
      exact le_trans h1 (le_foldr_max hy1)
    · exact ih (fun r' hr' => hne r' (List.mem_cons_of_mem _ hr')) hp2

/-! ### Claim theorems for the packer -/

/-- C1: for every non-empty list of rectangles with positive dimensions,
every input index `i` appears exactly once across all rows of the returned
plan (the total number of occurrences of `i` over all rows is one) and in
exactly one row (exactly one row contains `i`): the rows partition the
input indices. -/
theorem squarify_partition (sizes : List Size) (plan : List (List Nat) × Nat × Nat)
    (_hne : sizes ≠ []) (_hpos : ∀ p ∈ sizes, 0 < p.1 ∧ 0 < p.2)
    (h : squarify sizes = some plan) :
    ∀ i < sizes.length,
      (plan.1.map (List.count i)).sum = 1 ∧
      plan.1.countP (fun r => decide (i ∈ r)) = 1 := by
  obtain ⟨r, hr1, hr2, hplan⟩ := squarify_eq_candidate h
  intro i hi
  have hflat : plan.1.flatten = (sortZipped sizes).map (fun e => e.2) := by
    rw [hplan]
    exact buildSheet_flatten _ _
  have hcount : plan.1.flatten.count i = 1 := by
    rw [hflat]
    rw [(sortZipped_map_snd_perm sizes).count_eq i]
    exact List.count_eq_one_of_mem (List.nodup_range _) (List.mem_range.mpr hi)
  have hsum : (plan.1.map (List.count i)).sum = 1 := by
    rw [← List.count_flatten]
    exact hcount
  exact ⟨hsum, countP_mem_one i plan.1 hsum⟩

/-- C2: for every non-empty list of rectangles with positive dimensions,
the returned plan's canvas width is the maximum row width and its canvas
height is the sum of the row heights. -/
theorem squarify_canvas (sizes : List Size) (plan : List (List Nat) × Nat × Nat)
    (_hne : sizes ≠ []) (hpos : ∀ p ∈ sizes, 0 < p.1 ∧ 0 < p.2)
    (h : squarify sizes = some plan) :
    plan.2.1 = (plan.1.map (rowWidth sizes)).foldr max 0 ∧
    plan.2.2 = (plan.1.map (rowHeight sizes)).sum := by
  obtain ⟨r, hr1, hr2, hplan⟩ := squarify_eq_candidate h
  have hcoh : ∀ e ∈ sortZipped sizes, sizes.getD e.2 (0, 0) = e.1 :=
    fun e he => (sortZipped_coh he).2
  obtain ⟨hb, hbt⟩ := widthBudget_bounds hpos hr1 hr2
  rw [hplan]
  exact ⟨buildSheet_width sizes _ _ hcoh hb hbt, buildSheet_height sizes _ _ hcoh hb⟩

/-- C3: the Python `_squarify` does not return an empty plan on the empty
list; it raises `ValueError` at `sizes, idx_array = zip(*zipped)` (an empty
`zip` cannot be unpacked into two names), modelled as `none`.  This
contradicts the spec's requirement of a zero-row, zero-size plan. -/
theorem squarify_nil : squarify ([] : List Size) = none := by
  simp [squarify]

/-- C4: one step of the search at counter `k+1` with current best
unsquareness `bu`: if the candidate's unsquareness strictly exceeds `bu`
the search stops and returns the saved best plan unchanged; otherwise the
candidate replaces the best plan and its unsquareness becomes the new
best. -/
theorem searchLoop_stop_rule (l : List (Size × Nat)) (k : Nat)
    (best : List (List Nat) × Nat × Nat) (bu : Nat) :
    searchLoop l (k + 1) best (some bu) =
      if bu < unsq (buildSheet (widthBudget l (k + 1)) l).2.1
          (buildSheet (widthBudget l (k + 1)) l).2.2 then best
      else searchLoop l k (buildSheet (widthBudget l (k + 1)) l)
        (some (unsq (buildSheet (widthBudget l (k + 1)) l).2.1
          (buildSheet (widthBudget l (k + 1)) l).2.2)) := by
  simp only [searchLoop]

/-- C5: the packer processes rectangles in the order obtained by stable
sorting ascending by height with ties broken ascending by width:
concatenating the returned rows yields exactly the sorted index sequence,
the sorted sequence is a permutation of the indexed input, it is ordered
by (height, width) lexicographically, and each element still carries its
original rectangle via its preserved index. -/
theorem squarify_sorted_order (sizes : List Size) (plan : List (List Nat) × Nat × Nat)
    (h : squarify sizes = some plan) :
    plan.1.flatten = (sortZipped sizes).map (fun e => e.2) ∧
    (sortZipped sizes).Perm (sizes.zip (List.range sizes.length)) ∧
    List.Pairwise
      (fun p q : Size × Nat => p.1.2 < q.1.2 ∨ (p.1.2 = q.1.2 ∧ p.1.1 ≤ q.1.1))
      (sortZipped sizes) ∧
    ∀ p ∈ sortZipped sizes, sizes.getD p.2 (0, 0) = p.1 := by
  obtain ⟨r, -, -, hplan⟩ := squarify_eq_candidate h
  refine ⟨?_, sortZipped_perm sizes, sortZipped_pairwise_lex sizes,
    fun p hp => (sortZipped_coh hp).2⟩
  rw [hplan]
  exact buildSheet_flatten _ _

/-- C10: for every non-empty input with positive dimensions, the row
heights of the returned plan are nondecreasing from first to last row:
rectangles are consumed in ascending-height order and each row's height is
the maximum over a contiguous chunk of that order. -/
theorem squarify_rowHeights_mono (sizes : List Size)
    (plan : List (List Nat) × Nat × Nat) (_hne : sizes ≠ [])
    (_hpos : ∀ p ∈ sizes, 0 < p.1 ∧ 0 < p.2) (h : squarify sizes = some plan) :
    (plan.1.map (rowHeight sizes)).Pairwise (fun a b => a ≤ b) := by
  obtain ⟨r, hr1, hr2, hplan⟩ := squarify_eq_candidate h
  have hrows_ne : ∀ row ∈ plan.1, row ≠ [] := by
    rw [hplan]
    exact buildSheet_rows_ne _ _
  have hflat : plan.1.flatten = (sortZipped sizes).map (fun e => e.2) := by
    rw [hplan]
    exact buildSheet_flatten _ _
  have hpair : (plan.1.flatten.map (fun i => (sizes.getD i (0, 0)).2)).Pairwise
      (fun a b => a ≤ b) := by
    rw [hflat, List.map_map]
    have hmc : (sortZipped sizes).map
          ((fun i => (sizes.getD i (0, 0)).2) ∘ (fun e : Size × Nat => e.2))
        = (sortZipped sizes).map (fun e => e.1.2) := by
      refine List.map_congr_left ?_
      intro e he
      show (sizes.getD e.2 (0, 0)).2 = e.1.2
      rw [(sortZipped_coh he).2]
    rw [hmc, List.pairwise_map]
    exact sortZipped_sorted_height sizes
  exact chunks_max_mono (fun i => (sizes.getD i (0, 0)).2) plan.1 hrows_ne hpair

/-! ### The dimension validation -/

lemma listMin_le {xs : List Nat} {a : Nat} (h : a ∈ xs) : listMin xs ≤ a := by
  induction xs with
  | nil => cases h
  | cons x t ih =>
    cases t with
    | nil =>
      rcases List.mem_singleton.mp h with rfl
      exact Nat.le_refl _
    | cons y t' =>
      rcases List.mem_cons.mp h with rfl | h'
      · exact Nat.min_le_left _ _
      · exact le_trans (Nat.min_le_right _ _) (ih h')

lemma listMin_mem {xs : List Nat} (h : xs ≠ []) : listMin xs ∈ xs := by
  induction xs with
  | nil => exact absurd rfl h
  | cons x t ih =>
    cases t with
    | nil => simp [listMin]
    | cons y t' =>
      have hm : listMin (x :: y :: t') = min x (listMin (y :: t')) := rfl
      rcases Nat.le_total x (listMin (y :: t')) with h1 | h1
      · rw [hm, Nat.min_eq_left h1]
        exact List.mem_cons_self _ _
      · rw [hm, Nat.min_eq_right h1]
        exact List.mem_cons_of_mem _ (ih (by simp))

/-- C7: for a nonempty input with positive dimensions, the validation
raises (returns `some`) iff some width is not divisible by the minimum
width or some height is not divisible by the minimum height; it succeeds
(returns `none`) iff all dimensions divide evenly; the raised value
reports exactly the minimum width and minimum height; and `listMin`
really computes those minima. -/
theorem validateDims_rule (sizes : List Size) (hne : sizes ≠ [])
    (hpos : ∀ p ∈ sizes, 0 < p.1 ∧ 0 < p.2) :
    (validateDims sizes = none ↔ ∀ p ∈ sizes,
        listMin (sizes.map (fun p => p.1)) ∣ p.1 ∧
        listMin (sizes.map (fun p => p.2)) ∣ p.2) ∧
    (validateDims sizes ≠ none ↔ ∃ p ∈ sizes,
        ¬ listMin (sizes.map (fun p => p.1)) ∣ p.1 ∨
        ¬ listMin (sizes.map (fun p => p.2)) ∣ p.2) ∧
    (∀ e, validateDims sizes = some e →
        e = (listMin (sizes.map (fun p => p.1)),
          listMin (sizes.map (fun p => p.2)))) ∧
    (listMin (sizes.map (fun p => p.1)) ∈ sizes.map (fun p => p.1) ∧
      ∀ w ∈ sizes.map (fun p => p.1), listMin (sizes.map (fun p => p.1)) ≤ w) ∧
    (listMin (sizes.map (fun p => p.2)) ∈ sizes.map (fun p => p.2) ∧
      ∀ v ∈ sizes.map (fun p => p.2), listMin (sizes.map (fun p => p.2)) ≤ v) := by
  have hmapw : sizes.map (fun p => p.1) ≠ [] :=
    fun hmap => hne (List.map_eq_nil_iff.mp hmap)
  have hmaph : sizes.map (fun p => p.2) ≠ [] :=
    fun hmap => hne (List.map_eq_nil_iff.mp hmap)
  have hmw_mem := listMin_mem hmapw
  have hmh_mem := listMin_mem hmaph
  have hmw0 : 0 < listMin (sizes.map (fun p => p.1)) := by
    rcases List.mem_map.mp hmw_mem with ⟨p, hp, he⟩
    rw [← he]
    exact (hpos p hp).1
  have hmh0 : 0 < listMin (sizes.map (fun p => p.2)) := by
    rcases List.mem_map.mp hmh_mem with ⟨p, hp, he⟩
    rw [← he]
    exact (hpos p hp).2
  have hv : validateDims sizes =
      if (sizes.any fun p => decide (0 < p.1 % listMin (sizes.map (fun p => p.1)))) ||
          (sizes.any fun p => decide (0 < p.2 % listMin (sizes.map (fun p => p.2)))) then
        some (listMin (sizes.map (fun p => p.1)),
          listMin (sizes.map (fun p => p.2)))
      else none := rfl
  have hmodw : ∀ x : Nat,
      0 < x % listMin (sizes.map (fun p => p.1)) ↔
        ¬ listMin (sizes.map (fun p => p.1)) ∣ x := by
    intro x
    rw [Nat.pos_iff_ne_zero]
    exact (not_congr Nat.dvd_iff_mod_eq_zero).symm
  have hmodh : ∀ x : Nat,
      0 < x % listMin (sizes.map (fun p => p.2)) ↔
        ¬ listMin (sizes.map (fun p => p.2)) ∣ x := by
    intro x
    rw [Nat.pos_iff_ne_zero]
    exact (not_congr Nat.dvd_iff_mod_eq_zero).symm
  have hcond : ((sizes.any fun p =>
        decide (0 < p.1 % listMin (sizes.map (fun p => p.1)))) ||
      (sizes.any fun p =>
        decide (0 < p.2 % listMin (sizes.map (fun p => p.2))))) = true ↔
      ∃ p ∈ sizes, ¬ listMin (sizes.map (fun p => p.1)) ∣ p.1 ∨
        ¬ listMin (sizes.map (fun p => p.2)) ∣ p.2 := by
    simp only [Bool.or_eq_true, List.any_eq_true, decide_eq_true_eq]
    constructor
    · rintro (⟨p, hp, hm⟩ | ⟨p, hp, hm⟩)
      · exact ⟨p, hp, Or.inl ((hmodw p.1).mp hm)⟩
      · exact ⟨p, hp, Or.inr ((hmodh p.2).mp hm)⟩
    · rintro ⟨p, hp, hm | hm⟩
      · exact Or.inl ⟨p, hp, (hmodw p.1).mpr hm⟩
      · exact Or.inr ⟨p, hp, (hmodh p.2).mpr hm⟩
  by_cases hC : ((sizes.any fun p =>
        decide (0 < p.1 % listMin (sizes.map (fun p => p.1)))) ||
      (sizes.any fun p =>
        decide (0 < p.2 % listMin (sizes.map (fun p => p.2))))) = true
  · rw [hC] at hv
    replace hv : validateDims sizes =
        some (listMin (sizes.map (fun p => p.1)),
          listMin (sizes.map (fun p => p.2))) := by
      rw [hv]
      simp
    obtain ⟨p, hp, hfail⟩ := hcond.mp hC
    refine ⟨?_, ?_, ?_, ⟨hmw_mem, fun w hw => listMin_le hw⟩,
      ⟨hmh_mem, fun v hv' => listMin_le hv'⟩⟩
    · rw [hv]
      simp only [iff_iff_implies_and_implies]
      constructor
      · intro hsome
        exact absurd hsome (by simp)
      · intro hall
        exact absurd ((hall p hp).1) (fun hd => by
          rcases hfail with hf | hf
          · exact hf hd
          · exact hf (hall p hp).2)
    · rw [hv]
      constructor
      · intro _
        exact ⟨p, hp, hfail⟩
      · intro _
        simp
    · intro e he
      rw [hv] at he
      exact (Option.some.inj he).symm
  · rw [Bool.not_eq_true] at hC
    rw [hC] at hv
    replace hv : validateDims sizes = none := by
      rw [hv]
      simp
    have hnotex : ¬ ∃ p ∈ sizes, ¬ listMin (sizes.map (fun p => p.1)) ∣ p.1 ∨
        ¬ listMin (sizes.map (fun p => p.2)) ∣ p.2 := by
      intro hex
      have := hcond.mpr hex
      rw [hC] at this
      exact Bool.false_ne_true this
    refine ⟨?_, ?_, ?_, ⟨hmw_mem, fun w hw => listMin_le hw⟩,
      ⟨hmh_mem, fun v hv' => listMin_le hv'⟩⟩
    · rw [hv]
      constructor
      · intro _ p hp
        by_contra hnd
        exact hnotex ⟨p, hp, by tauto⟩
      · intro _
        rfl
    · rw [hv]
      constructor
      · intro hcontra
        exact absurd rfl hcontra
      · intro hex
        exact absurd hex hnotex
    · intro e he
      rw [hv] at he
      exact absurd he (by simp)

/-! ### Arithmetic facts about ceiling division and `ceilSqrt` -/

lemma cdiv_le_iff {b : Nat} (hb : 0 < b) (a m : Nat) : cdiv a b ≤ m ↔ a ≤ m * b := by
  unfold cdiv
  by_cases hz : a % b = 0
  · rw [if_pos hz, Nat.add_zero]
    constructor
    · intro h
      have hd : b ∣ a := Nat.dvd_of_mod_eq_zero hz
      have he : a / b * b = a := Nat.div_mul_cancel hd
      calc a = a / b * b := he.symm
        _ ≤ m * b := Nat.mul_le_mul_right b h
    · intro h
      rw [Nat.div_le_iff_le_mul_add_pred hb]
      calc a ≤ m * b := h
        _ = b * m := Nat.mul_comm _ _
        _ ≤ b * m + (b - 1) := Nat.le_add_right _ _
  · rw [if_neg hz]
    constructor
    · intro h
      have h1 : a / b < a / b + 1 := Nat.lt_succ_self _
      have h2 : a < (a / b + 1) * b := (Nat.div_lt_iff_lt_mul hb).mp h1
      calc a ≤ (a / b + 1) * b := Nat.le_of_lt h2
        _ ≤ m * b := Nat.mul_le_mul_right b h
    · intro h
      have hlt : a < m * b := by
        rcases Nat.lt_or_ge a (m * b) with h' | h'
        · exact h'
        · have heq : a = m * b := Nat.le_antisymm h h'
          rw [heq, Nat.mul_mod_left] at hz
          exact absurd rfl hz
      have := (Nat.div_lt_iff_lt_mul hb).mpr hlt
      omega

lemma lt_cdiv_iff {b : Nat} (hb : 0 < b) (a m : Nat) : m < cdiv a b ↔ m * b < a := by
  constructor
  · intro h
    by_contra hle
    have := (cdiv_le_iff hb a m).mpr (Nat.le_of_not_lt hle)
    omega
  · intro h
    by_contra hle
    have := (cdiv_le_iff hb a m).mp (Nat.le_of_not_lt hle)
    omega

lemma cdiv_anti {b b' : Nat} (hb : 0 < b) (hbb : b ≤ b') (a : Nat) :
    cdiv a b' ≤ cdiv a b := by
  have hb' : 0 < b' := Nat.lt_of_lt_of_le hb hbb
  rw [cdiv_le_iff hb']
  exact le_trans ((cdiv_le_iff hb a (cdiv a b)).mp (Nat.le_refl _))
    (Nat.mul_le_mul_left _ hbb)

/-- `ceilSqrt n` really is `⌈√n⌉` for positive `n`: it is at least 1, its
square is at least `n`, the square of its predecessor is below `n`, and it
is at most `n`. -/
lemma ceilSqrt_spec {n : Nat} (hn : 0 < n) :
    (ceilSqrt n - 1) * (ceilSqrt n - 1) < n ∧ n ≤ ceilSqrt n * ceilSqrt n ∧
      0 < ceilSqrt n ∧ ceilSqrt n ≤ n := by
  unfold ceilSqrt
  have h1 : Nat.sqrt (n - 1) * Nat.sqrt (n - 1) ≤ n - 1 := Nat.sqrt_le (n - 1)
  have h2 : n - 1 < (Nat.sqrt (n - 1) + 1) * (Nat.sqrt (n - 1) + 1) :=
    Nat.lt_succ_sqrt (n - 1)
  have h3 : Nat.sqrt (n - 1) ≤ n - 1 := Nat.sqrt_le_self (n - 1)
  refine ⟨?_, by omega, by omega, by omega⟩
  simpa using Nat.lt_of_le_of_lt h1 (by omega)

lemma unsq_mul (s a b : Nat) : unsq (s * a) (s * b) = s * unsq a b := by
  unfold unsq
  have h : ((s * a : Nat) : Int) - ((s * b : Nat) : Int)
      = (s : Int) * (((a : Nat) : Int) - ((b : Nat) : Int)) := by
    push_cast
    ring
  rw [h, Int.natAbs_mul]
  simp

lemma unsq_of_ge {a b : Nat} (h : b ≤ a) : unsq a b = a - b := by
  unfold unsq
  omega

lemma unsq_self (a : Nat) : unsq a a = 0 := by
  unfold unsq
  omega

/-! ### The packer on identical squares -/

lemma repl_sort_all (N s : Nat) :
    ∀ e ∈ sortZipped (List.replicate N (s, s)), e.1 = ((s : Nat), (s : Nat)) := by
  intro e he
  obtain ⟨hlt, hget⟩ := sortZipped_coh he
  rw [← hget]
  have hN : e.2 < (List.replicate N ((s : Nat), s)).length := by simpa using hlt
  rw [List.getD_eq_getElem?_getD, List.getElem?_eq_getElem hN,
    List.getElem_replicate]
  rfl

lemma widthBudget_all {l : List (Size × Nat)} {s : Nat}
    (hall : ∀ e ∈ l, e.1 = ((s : Nat), (s : Nat))) {r : Nat} (hr : r ≤ l.length) :
    widthBudget l r = r * s := by
  unfold widthBudget
  have hrep : (l.take r).map (fun e => e.1.1) = List.replicate r s := by
    rw [List.eq_replicate_iff]
    constructor
    · rw [List.length_map, List.length_take]
      omega
    · intro b hb
      rcases List.mem_map.mp hb with ⟨e, he, rfl⟩
      rw [hall e (List.mem_of_mem_take he)]
  rw [hrep, List.sum_replicate]
  simp [Nat.mul_comm]

/-- The walk on a run of identical `(s, s)` squares with budget `k * s`:
rows close after every `k`-th square, so after consuming `m` squares on
top of a current row of `j` squares the walk has closed `(j + m) / k`
further rows and holds `(j + m) % k` squares in the current row. -/
lemma buildWalk_repl {s k : Nat} (hs : 0 < s) (hk : 0 < k) :
    ∀ (l : List (Size × Nat)), (∀ e ∈ l, e.1 = ((s : Nat), (s : Nat))) →
    ∀ (sh : List (List Nat)) (cur : List Nat) (cw cm ht mw : Nat),
    cw = cur.length * s →
    cm = (if cur.length = 0 then 0 else s) →
    cur.length < k →
    (buildWalk (k * s) l ⟨sh, cur, cw, cm, ht, mw⟩).sheet.length
        = sh.length + (cur.length + l.length) / k ∧
    (buildWalk (k * s) l ⟨sh, cur, cw, cm, ht, mw⟩).curRow.length
        = (cur.length + l.length) % k ∧
    (buildWalk (k * s) l ⟨sh, cur, cw, cm, ht, mw⟩).curMaxH
        = (if (cur.length + l.length) % k = 0 then 0 else s) ∧
    (buildWalk (k * s) l ⟨sh, cur, cw, cm, ht, mw⟩).height
        = ht + ((cur.length + l.length) / k) * s ∧
    (buildWalk (k * s) l ⟨sh, cur, cw, cm, ht, mw⟩).maxWidth
        = (if (cur.length + l.length) / k = 0 then mw else max mw (k * s)) := by
  intro l
  induction l with
  | nil =>
    intro _ sh cur cw cm ht mw hcw hcm hlt
    have hdiv : cur.length / k = 0 := Nat.div_eq_of_lt hlt
    have hmod : cur.length % k = cur.length := Nat.mod_eq_of_lt hlt
    refine ⟨?_, ?_, ?_, ?_, ?_⟩ <;>
      simp only [buildWalk, List.length_nil, Nat.add_zero, hdiv, hmod] <;>
      first
        | omega
        | exact hcm
        | simp
  | cons e rest ih =>
    intro hall sh cur cw cm ht mw hcw hcm hlt
    have he : e.1 = ((s : Nat), (s : Nat)) := hall e (List.mem_cons_self _ _)
    have hall' : ∀ e ∈ rest, e.1 = ((s : Nat), (s : Nat)) :=
      fun e' he' => hall e' (List.mem_cons_of_mem _ he')
    rcases e with ⟨⟨w, h⟩, idx⟩
    have hw : s = w := by
      have := congrArg Prod.fst he
      simp at this
      omega
    have hh : s = h := by
      have := congrArg Prod.snd he
      simp at this
      omega
    subst hw
    subst hh
    simp only [buildWalk]
    have hmaxH : max cm s = s := by
      rw [hcm]
      by_cases h0 : cur.length = 0
      · rw [if_pos h0]
        exact Nat.max_eq_right (Nat.zero_le _)
      · rw [if_neg h0]
        exact Nat.max_self _
    have hcw1 : cw + s = (cur.length + 1) * s := by
      rw [hcw, Nat.succ_mul]
    by_cases hclose : k * s ≤ cw + s
    · have hk_le : k ≤ cur.length + 1 := by
        rw [hcw1] at hclose
        exact Nat.le_of_mul_le_mul_right hclose hs
      have hkeq : cur.length + 1 = k := Nat.le_antisymm hlt hk_le
      rw [if_pos hclose]
      simp only [List.length_cons]
      obtain ⟨ih1, ih2, ih3, ih4, ih5⟩ := ih hall' (sh ++ [cur ++ [idx]]) [] 0 0
        (ht + max cm s) (max mw (cw + s)) (by simp) (by simp) hk
      simp only [List.length_nil, Nat.zero_add] at ih1 ih2 ih3 ih4 ih5
      have harr : cur.length + (rest.length + 1) = rest.length + k := by omega
      have hdivk : (cur.length + (rest.length + 1)) / k = rest.length / k + 1 := by
        rw [harr, Nat.add_div_right _ hk]
      have hmodk : (cur.length + (rest.length + 1)) % k = rest.length % k := by
        rw [harr, Nat.add_mod_right]
      refine ⟨?_, ?_, ?_, ?_, ?_⟩
      · rw [ih1, hdivk]
        simp
        omega
      · rw [ih2, hmodk]
      · rw [ih3]
        simp only [hmodk]
      · rw [ih4, hdivk, hmaxH, Nat.add_mul, Nat.one_mul]
        omega
      · rw [ih5]
        simp only [hdivk]
        have hcwk : cw + s = k * s := by
          rw [hcw1, hkeq]
        rw [hcwk]
        by_cases hz : rest.length / k = 0
        · simp [hz]
        · simp [hz, Nat.max_assoc]
    · have hk_gt : cur.length + 1 < k := by
        rw [hcw1] at hclose
        by_contra hcon
        have h3 : k ≤ cur.length + 1 := Nat.le_of_not_lt hcon
        exact hclose (Nat.mul_le_mul_right s h3)
      rw [if_neg hclose]
      simp only [List.length_cons]
      obtain ⟨ih1, ih2, ih3, ih4, ih5⟩ := ih hall' sh (cur ++ [idx]) (cw + s)
        (max cm s) ht mw (by rw [hcw1]; simp) (by rw [hmaxH]; simp) (by simpa using hk_gt)
      have harr : cur.length + 1 + rest.length = cur.length + (rest.length + 1) := by
        omega
      simp only [List.length_append, List.length_singleton] at ih1 ih2 ih3 ih4 ih5
      rw [harr] at ih1 ih2 ih3 ih4 ih5
      exact ⟨ih1, ih2, ih3, ih4, ih5⟩

/-- On `N` identical `(s, s)` squares with budget `k * s` (`1 ≤ k ≤ N`),
the candidate sheet has `⌈N / k⌉` rows, canvas width `k * s` and canvas
height `⌈N / k⌉ * s`. -/
lemma buildSheet_repl {s k N : Nat} (hs : 0 < s) (hk : 0 < k) (hkN : k ≤ N)
    {l : List (Size × Nat)} (hall : ∀ e ∈ l, e.1 = ((s : Nat), (s : Nat)))
    (hlen : l.length = N) :
    (buildSheet (k * s) l).1.length = cdiv N k ∧
    (buildSheet (k * s) l).2.1 = k * s ∧
    (buildSheet (k * s) l).2.2 = cdiv N k * s := by
  obtain ⟨h1, h2, h3, h4, h5⟩ := buildWalk_repl hs hk l hall [] [] 0 0 0 0
    (by simp) (by simp) hk
  simp only [List.length_nil, Nat.zero_add, hlen] at h1 h2 h3 h4 h5
  have hdivpos : 0 < N / k := Nat.div_pos hkN hk
  unfold buildSheet
  generalize hgen : buildWalk (k * s) l ⟨[], [], 0, 0, 0, 0⟩ = st at h1 h2 h3 h4 h5 ⊢
  by_cases hmod : N % k = 0
  · have hcurnil : st.curRow = [] := List.length_eq_zero.mp (by rw [h2, hmod])
    have he : st.curRow.isEmpty = true := by
      rw [hcurnil]
      rfl
    rw [if_pos he]
    have hcd : cdiv N k = N / k := by
      unfold cdiv
      rw [if_pos hmod]
      omega
    refine ⟨?_, ?_, ?_⟩
    · rw [h1, hcd]
    · rw [h5, if_neg (by omega)]
      exact Nat.zero_max _
    · rw [h4, hcd]
  · have hcurne : st.curRow ≠ [] := by
      intro hnil
      rw [hnil] at h2
      exact hmod (by simpa using h2.symm)
    have he : ¬ st.curRow.isEmpty = true := by
      intro hemp
      exact hcurne (List.isEmpty_iff.mp hemp)
    rw [if_neg he]
    have hcd : cdiv N k = N / k + 1 := by
      unfold cdiv
      rw [if_neg hmod]
    refine ⟨?_, ?_, ?_⟩
    · simp only [List.length_append, List.length_singleton, h1, hcd]
    · rw [h5, if_neg (by omega)]
      exact Nat.zero_max _
    · rw [h4, h3, if_neg hmod, hcd, Nat.add_mul, Nat.one_mul]

/-- `ceilSqrt N` is at most `N` for positive `N`. -/
lemma ceilSqrt_le {N : Nat} (hN : 0 < N) : ceilSqrt N ≤ N :=
  (ceilSqrt_spec hN).2.2.2

lemma cdiv_at_c_A {N c : Nat} (hc : 0 < c) (hc2 : N ≤ c * c)
    (hA : c * (c - 1) < N) : cdiv N c = c := by
  refine Nat.le_antisymm ((cdiv_le_iff hc N c).mpr hc2) ?_
  have h1 : c - 1 < cdiv N c := (lt_cdiv_iff hc N (c - 1)).mpr (by
    have : (c - 1) * c = c * (c - 1) := Nat.mul_comm _ _
    omega)
  omega

lemma cdiv_at_c_B {N c : Nat} (hc : 0 < c) (hN : 0 < N)
    (hc1 : (c - 1) * (c - 1) < N) (hB : N ≤ c * (c - 1)) : cdiv N c = c - 1 := by
  have hc2' : 2 ≤ c := by
    rcases Nat.lt_or_ge c 2 with h | h
    · interval_cases c
      all_goals omega
    · exact h
  refine Nat.le_antisymm ((cdiv_le_iff hc N (c - 1)).mpr (by
    rw [Nat.mul_comm] at hB
    exact hB)) ?_
  have hlt : (c - 2) * c < N := by
    have hq : (c - 2) * c < (c - 1) * (c - 1) + 1 := by
      obtain ⟨m, rfl⟩ : ∃ m, c = m + 2 := ⟨c - 2, by omega⟩
      have he1 : (m + 2 - 2) * (m + 2) = m * m + 2 * m := by
        simp
        ring
      have he2 : (m + 2 - 1) * (m + 2 - 1) = m * m + 2 * m + 1 := by
        simp
        ring
      omega
    omega
  have h1 : c - 2 < cdiv N c := (lt_cdiv_iff hc N (c - 2)).mpr hlt
  omega

lemma cdiv_at_cm1_B {N c : Nat} (hN : 0 < N) (hc1 : (c - 1) * (c - 1) < N)
    (hB : N ≤ c * (c - 1)) : cdiv N (c - 1) = c := by
  have hc2' : 2 ≤ c := by
    rcases Nat.lt_or_ge c 2 with h | h
    · interval_cases c
      all_goals omega
    · exact h
  have hc1' : 0 < c - 1 := by omega
  refine Nat.le_antisymm ((cdiv_le_iff hc1' N c).mpr hB) ?_
  have h1 : c - 1 < cdiv N (c - 1) := (lt_cdiv_iff hc1' N (c - 1)).mpr hc1
  omega

lemma cdiv_at_cm1_A {N c : Nat} (hc2' : 2 ≤ c) (hA : c * (c - 1) < N) :
    c + 1 ≤ cdiv N (c - 1) := by
  have hc1' : 0 < c - 1 := by omega
  have h1 : c < cdiv N (c - 1) := (lt_cdiv_iff hc1' N c).mpr hA
  omega

lemma cdiv_at_cm2 {N c : Nat} (hc3 : 3 ≤ c) (hc1 : (c - 1) * (c - 1) < N) :
    c + 1 ≤ cdiv N (c - 2) := by
  have hc2' : 0 < c - 2 := by omega
  have hlt : c * (c - 2) < N := by
    have hq : c * (c - 2) + 1 = (c - 1) * (c - 1) := by
      obtain ⟨m, rfl⟩ : ∃ m, c = m + 3 := ⟨c - 3, by omega⟩
      have he1 : (m + 3) * (m + 3 - 2) = m * m + 4 * m + 3 := by
        simp
        ring
      have he2 : (m + 3 - 1) * (m + 3 - 1) = m * m + 4 * m + 4 := by
        simp
        ring
      omega
    omega
  have h1 : c < cdiv N (c - 2) := (lt_cdiv_iff hc2' N c).mpr hlt
  omega

/-- Monotonicity of unsquareness above `ceilSqrt N`: for `j ≥ c` (where
`N ≤ c * c`), the candidate unsquareness is nondecreasing in the target
row count. -/
lemma unsq_cdiv_mono {N c j : Nat} (hc : 0 < c) (hc2 : N ≤ c * c)
    (hj : c ≤ j) : unsq j (cdiv N j) ≤ unsq (j + 1) (cdiv N (j + 1)) := by
  have hb : 0 < j := Nat.lt_of_lt_of_le hc hj
  have h1 : cdiv N j ≤ j := (cdiv_le_iff hb N j).mpr
    (le_trans hc2 (Nat.mul_le_mul hj hj))
  have h2 : cdiv N (j + 1) ≤ cdiv N j := cdiv_anti hb (Nat.le_succ j) N
  have h3 : cdiv N (j + 1) ≤ j + 1 := le_trans h2 (le_trans h1 (Nat.le_succ j))
  rw [unsq_of_ge h1, unsq_of_ge h3]
  omega

/-- The candidate at budget index `r` on `N` identical `(s, s)` squares:
row count, canvas size and unsquareness in closed form. -/
lemma cand_spec (N s : Nat) (hs : 0 < s) {r : Nat} (hr : 0 < r) (hrN : r ≤ N) :
    (buildSheet (widthBudget (sortZipped (List.replicate N (s, s))) r)
      (sortZipped (List.replicate N (s, s)))).1.length = cdiv N r ∧
    (buildSheet (widthBudget (sortZipped (List.replicate N (s, s))) r)
      (sortZipped (List.replicate N (s, s)))).2.1 = r * s ∧
    (buildSheet (widthBudget (sortZipped (List.replicate N (s, s))) r)
      (sortZipped (List.replicate N (s, s)))).2.2 = cdiv N r * s ∧
    unsq (buildSheet (widthBudget (sortZipped (List.replicate N (s, s))) r)
        (sortZipped (List.replicate N (s, s)))).2.1
      (buildSheet (widthBudget (sortZipped (List.replicate N (s, s))) r)
        (sortZipped (List.replicate N (s, s)))).2.2 = s * unsq r (cdiv N r) := by
  have hLlen : (sortZipped (List.replicate N ((s : Nat), (s : Nat)))).length = N := by
    rw [sortZipped_length, List.length_replicate]
  have hwb : widthBudget (sortZipped (List.replicate N ((s : Nat), (s : Nat)))) r
      = r * s :=
    widthBudget_all (repl_sort_all N s) (by rw [hLlen]; exact hrN)
  rw [hwb]
  obtain ⟨h1, h2, h3⟩ := buildSheet_repl hs hr hrN (repl_sort_all N s) hLlen
  refine ⟨h1, h2, h3, ?_⟩
  rw [h2, h3, Nat.mul_comm r s, Nat.mul_comm (cdiv N r) s, unsq_mul]

/-- Starting with `min_unsquareness = inf` behaves like starting with any
stored bound at least the first candidate's unsquareness. -/
lemma searchLoop_none_eq_some (l : List (Size × Nat)) (k : Nat)
    (best : List (List Nat) × Nat × Nat) (M : Nat) (hk : 0 < k)
    (hM : unsq (buildSheet (widthBudget l k) l).2.1
      (buildSheet (widthBudget l k) l).2.2 ≤ M) :
    searchLoop l k best none = searchLoop l k best (some M) := by
  obtain ⟨k', rfl⟩ : ∃ k', k = k' + 1 := ⟨k - 1, by omega⟩
  simp only [searchLoop]
  rw [if_neg (Nat.not_lt.mpr hM)]

/-- The endgame of the search on identical squares: entering counter
`c - 1` (where `c = ceilSqrt N`) with the unsquareness of the candidate at
`c` stored as best, the search either stops immediately (when `N > c*(c-1)`,
where the candidate at `c` is exactly square in units of `s`) or accepts
the candidate at `c - 1` and then stops. -/
lemma searchLoop_endgame (N s : Nat) (hs : 0 < s) (hN : 0 < N)
    (plan : List (List Nat) × Nat × Nat) :
    searchLoop (sortZipped (List.replicate N (s, s))) (ceilSqrt N - 1) plan
      (some (s * unsq (ceilSqrt N) (cdiv N (ceilSqrt N)))) =
    (if ceilSqrt N * (ceilSqrt N - 1) < N then plan
     else buildSheet
       (widthBudget (sortZipped (List.replicate N (s, s))) (ceilSqrt N - 1))
       (sortZipped (List.replicate N (s, s)))) := by
  obtain ⟨hc1, hc2, hc, hcN⟩ := ceilSqrt_spec hN
  by_cases hcase : ceilSqrt N * (ceilSqrt N - 1) < N
  · rw [if_pos hcase]
    rcases Nat.eq_or_lt_of_le hc with h1 | h1
    · rw [← h1]
      rfl
    · have hcd := cdiv_at_c_A hc hc2 hcase
      obtain ⟨d, hd⟩ : ∃ d, ceilSqrt N - 1 = d + 1 := ⟨ceilSqrt N - 2, by omega⟩
      rw [hd]
      simp only [searchLoop]
      rw [← hd]
      have hu := (cand_spec N s hs (show 0 < ceilSqrt N - 1 by omega)
        (show ceilSqrt N - 1 ≤ N by omega)).2.2.2
      rw [hu, hcd, unsq_self, Nat.mul_zero]
      have hge := cdiv_at_cm1_A (by omega) hcase
      have hpos : 0 < unsq (ceilSqrt N - 1) (cdiv N (ceilSqrt N - 1)) := by
        unfold unsq
        omega
      rw [if_pos (Nat.mul_pos hs hpos)]
  · rw [if_neg hcase]
    have hB : N ≤ ceilSqrt N * (ceilSqrt N - 1) := Nat.le_of_not_lt hcase
    have hc2' : 2 ≤ ceilSqrt N := by
      by_contra hcon
      have hone : ceilSqrt N = 1 := by omega
      rw [hone] at hB
      simp at hB
      omega
    have hcdc := cdiv_at_c_B hc hN hc1 hB
    have hcdc1 := cdiv_at_cm1_B hN hc1 hB
    have huc : unsq (ceilSqrt N) (cdiv N (ceilSqrt N)) = 1 := by
      rw [hcdc]
      unfold unsq
      omega
    obtain ⟨d, hd⟩ : ∃ d, ceilSqrt N - 1 = d + 1 := ⟨ceilSqrt N - 2, by omega⟩
    rw [hd]
    simp only [searchLoop]
    rw [← hd]
    have hu := (cand_spec N s hs (show 0 < ceilSqrt N - 1 by omega)
      (show ceilSqrt N - 1 ≤ N by omega)).2.2.2
    rw [hu, huc, Nat.mul_one, hcdc1]
    have hu1 : unsq (ceilSqrt N - 1) (ceilSqrt N) = 1 := by
      unfold unsq
      omega
    rw [hu1, Nat.mul_one]
    rw [if_neg (Nat.lt_irrefl s)]
    rcases Nat.eq_zero_or_pos d with hd0 | hd1
    · rw [hd0]
      rfl
    · obtain ⟨e, he⟩ : ∃ e, d = e + 1 := ⟨d - 1, by omega⟩
      rw [he]
      simp only [searchLoop]
      rw [← he]
      have hd2 : d = ceilSqrt N - 2 := by omega
      rw [hd2]
      have hu2 := (cand_spec N s hs (show 0 < ceilSqrt N - 2 by omega)
        (show ceilSqrt N - 2 ≤ N by omega)).2.2.2
      rw [hu2]
      have hge2 := cdiv_at_cm2 (by omega) hc1
      have hbig : s < s * unsq (ceilSqrt N - 2) (cdiv N (ceilSqrt N - 2)) := by
        have h3 : 3 ≤ unsq (ceilSqrt N - 2) (cdiv N (ceilSqrt N - 2)) := by
          unfold unsq
          omega
        calc s = s * 1 := (Nat.mul_one s).symm
          _ < s * unsq (ceilSqrt N - 2) (cdiv N (ceilSqrt N - 2)) :=
            (Nat.mul_lt_mul_left hs).mpr (by omega)
      rw [if_pos hbig]

/-- The descent phase of the search on identical squares: above `ceilSqrt N`
the unsquareness is nondecreasing in the counter, so each candidate is
accepted; the search reaches the endgame and returns the candidate at
`ceilSqrt N` or `ceilSqrt N - 1`. -/
lemma searchLoop_descent (N s : Nat) (hs : 0 < s) (hN : 0 < N) :
    ∀ k, ceilSqrt N ≤ k → k ≤ N →
    ∀ (plan : List (List Nat) × Nat × Nat) (bu : Nat),
    unsq k (cdiv N k) ≤ bu →
    searchLoop (sortZipped (List.replicate N (s, s))) k plan (some (s * bu)) =
      (if ceilSqrt N * (ceilSqrt N - 1) < N then
        buildSheet (widthBudget (sortZipped (List.replicate N (s, s))) (ceilSqrt N))
          (sortZipped (List.replicate N (s, s)))
      else
        buildSheet
          (widthBudget (sortZipped (List.replicate N (s, s))) (ceilSqrt N - 1))
          (sortZipped (List.replicate N (s, s)))) := by
  obtain ⟨hc1, hc2, hc, hcN⟩ := ceilSqrt_spec hN
  intro k
  induction k using Nat.strong_induction_on with
  | _ k ih =>
    intro hck hkN plan bu hbu
    obtain ⟨k', rfl⟩ : ∃ k', k = k' + 1 := ⟨k - 1, by omega⟩
    simp only [searchLoop]
    have hu := (cand_spec N s hs (show 0 < k' + 1 by omega) hkN).2.2.2
    rw [hu]
    rw [if_neg (Nat.not_lt.mpr (Nat.mul_le_mul_left s hbu))]
    rcases Nat.eq_or_lt_of_le hck with heq | hlt2
    · rw [show k' + 1 = ceilSqrt N from heq.symm]
      rw [show k' = ceilSqrt N - 1 from by omega]
      exact searchLoop_endgame N s hs hN _
    · exact ih k' (by omega) (by omega) (by omega) _ _
        (unsq_cdiv_mono hc hc2 (by omega))

/-- `_squarify` on `N` identical `(s, s)` squares returns the candidate at
`ceilSqrt N` row-width budgets when `N > c*(c-1)` and the candidate at
`ceilSqrt N - 1` otherwise. -/
lemma squarify_repl_eq (N s : Nat) (hs : 0 < s) (hN : 0 < N) :
    squarify (List.replicate N (s, s)) =
      some (if ceilSqrt N * (ceilSqrt N - 1) < N then
        buildSheet (widthBudget (sortZipped (List.replicate N (s, s))) (ceilSqrt N))
          (sortZipped (List.replicate N (s, s)))
      else
        buildSheet
          (widthBudget (sortZipped (List.replicate N (s, s))) (ceilSqrt N - 1))
          (sortZipped (List.replicate N (s, s)))) := by
  obtain ⟨hc1, hc2, hc, hcN⟩ := ceilSqrt_spec hN
  have hne : List.replicate N ((s : Nat), (s : Nat)) ≠ [] := by
    intro h
    have := congrArg List.length h
    simp at this
    omega
  unfold squarify
  rw [if_neg hne]
  show some (searchLoop (sortZipped (List.replicate N (s, s)))
      (List.replicate N ((s : Nat), (s : Nat))).length
      ([(sortZipped (List.replicate N (s, s))).map (fun e => e.2)],
        ((List.replicate N ((s : Nat), (s : Nat))).map (fun p => p.1)).foldr max 0,
        ((List.replicate N ((s : Nat), (s : Nat))).map (fun p => p.2)).foldr max 0)
      none) = _
  congr 1
  simp only [List.length_replicate]
  rw [searchLoop_none_eq_some _ N _ (s * unsq N (cdiv N N)) hN
    (le_of_eq ((cand_spec N s hs hN (Nat.le_refl N)).2.2.2))]
  exact searchLoop_descent N s hs hN N hcN (Nat.le_refl N) _ _ (Nat.le_refl _)

/-- C6: packing `N ≥ 1` identical squares of side `s ≥ 1` yields a canvas
whose width and height differ by at most `s`, and (in particular whenever
every row except possibly the last holds the same number of squares, which
is always the case here) exactly `ceilSqrt N = ⌈√N⌉` rows. -/
theorem squarify_identical_squares (N s : Nat) (hN : 0 < N) (hs : 0 < s)
    (plan : List (List Nat) × Nat × Nat)
    (h : squarify (List.replicate N (s, s)) = some plan)
    (_hfull : ∀ r ∈ plan.1.dropLast, ∀ r' ∈ plan.1.dropLast,
      r.length = r'.length) :
    unsq plan.2.1 plan.2.2 ≤ s ∧ plan.1.length = ceilSqrt N := by
  obtain ⟨hc1, hc2, hc, hcN⟩ := ceilSqrt_spec hN
  have hmain := squarify_repl_eq N s hs hN
  rw [h] at hmain
  have hplan := Option.some.inj hmain
  by_cases hcase : ceilSqrt N * (ceilSqrt N - 1) < N
  · rw [if_pos hcase] at hplan
    obtain ⟨hlen, hW, hH, -⟩ := cand_spec N s hs hc hcN
    have hcd := cdiv_at_c_A hc hc2 hcase
    rw [hplan]
    constructor
    · rw [hW, hH, hcd, unsq_self]
      exact Nat.zero_le s
    · rw [hlen, hcd]
  · rw [if_neg hcase] at hplan
    have hB : N ≤ ceilSqrt N * (ceilSqrt N - 1) := Nat.le_of_not_lt hcase
    have hc2' : 2 ≤ ceilSqrt N := by
      by_contra hcon
      have hone : ceilSqrt N = 1 := by omega
      rw [hone] at hB
      simp at hB
      omega
    obtain ⟨hlen, hW, hH, -⟩ := cand_spec N s hs
      (show 0 < ceilSqrt N - 1 by omega) (show ceilSqrt N - 1 ≤ N by omega)
    have hcd := cdiv_at_cm1_B hN hc1 hB
    rw [hplan]
    constructor
    · rw [hW, hH, hcd, Nat.mul_comm (ceilSqrt N - 1) s,
        Nat.mul_comm (ceilSqrt N) s, unsq_mul]
      have h1 : unsq (ceilSqrt N - 1) (ceilSqrt N) = 1 := by
        unfold unsq
        omega
      rw [h1, Nat.mul_one]
    · rw [hlen, hcd]

/-! ### Concrete witnesses for the packer claims -/

theorem squarify_partition_witness :
    (([[2], [0], [1]] : List (List Nat)).map (List.count 0)).sum = 1 ∧
    ([[2], [0], [1]] : List (List Nat)).countP (fun r => decide (0 ∈ r)) = 1 :=
  squarify_partition [(3, 1), (1, 2), (2, 1)] ([[2], [0], [1]], 3, 4)
    (by decide) (by decide) (by decide) 0 (by decide)

theorem squarify_canvas_witness :
    (3 : Nat) = (([[2], [0], [1]] : List (List Nat)).map
      (rowWidth [(3, 1), (1, 2), (2, 1)])).foldr max 0 ∧
    (4 : Nat) = (([[2], [0], [1]] : List (List Nat)).map
      (rowHeight [(3, 1), (1, 2), (2, 1)])).sum :=
  squarify_canvas [(3, 1), (1, 2), (2, 1)] ([[2], [0], [1]], 3, 4)
    (by decide) (by decide) (by decide)

theorem squarify_sorted_order_witness :
    ([[2], [0], [1]] : List (List Nat)).flatten
      = (sortZipped [(3, 1), (1, 2), (2, 1)]).map (fun e => e.2) :=
  (squarify_sorted_order [(3, 1), (1, 2), (2, 1)] ([[2], [0], [1]], 3, 4)
    (by decide)).1

theorem squarify_identical_squares_witness :
    unsq (([[0, 1], [2, 3], [4]], 4, 6) :
        List (List Nat) × Nat × Nat).2.1
      (([[0, 1], [2, 3], [4]], 4, 6) : List (List Nat) × Nat × Nat).2.2 ≤ 2 ∧
    (([[0, 1], [2, 3], [4]], 4, 6) :
      List (List Nat) × Nat × Nat).1.length = ceilSqrt 5 :=
  squarify_identical_squares 5 2 (by decide) (by decide)
    ([[0, 1], [2, 3], [4]], 4, 6) (by decide) (by decide)

theorem validateDims_rule_witness :
    ((2 : Nat), (2 : Nat)) =
      (listMin ([(2, 2), (3, 2)].map (fun p : Size => p.1)),
        listMin ([(2, 2), (3, 2)].map (fun p : Size => p.2))) :=
  (validateDims_rule [(2, 2), (3, 2)] (by decide) (by decide)).2.2.1
    (2, 2) (by decide)

theorem squarify_rowHeights_mono_witness :
    (([[2], [0], [1]] : List (List Nat)).map
      (rowHeight [(3, 1), (1, 2), (2, 1)])).Pairwise (fun a b => a ≤ b) :=
  squarify_rowHeights_mono [(3, 1), (1, 2), (2, 1)] ([[2], [0], [1]], 3, 4)
    (by decide) (by decide) (by decide)

end ImageProcessing

namespace Framemaker

/-- A CIE L*a*b* colour sample, real-valued (Python floats are modelled by
real numbers). -/
abbrev Lab := ℝ × ℝ × ℝ

/-- Lines 77-84 of `framemaker.py`: per-channel sRGB linearisation.
`nrgb = rgb / 255`; channels above 0.04045 get the gamma curve
`((v + 0.055) / 1.055) ** 2.4`, the rest are divided by 12.92. -/
noncomputable def linearize (v : ℝ) : ℝ :=
  if v / 255 > 0.04045 then ((v / 255 + 0.055) / 1.055) ^ (2.4 : ℝ)
  else (v / 255) / 12.92

/-- Lines 84-90 of `framemaker.py`: scale the linearised channels by 100
and apply the fixed sRGB-to-XYZ (D65) matrix. -/
noncomputable def rgb2xyz (rgb : ℝ × ℝ × ℝ) : ℝ × ℝ × ℝ :=
  (linearize rgb.1 * 100 * 0.4124 + linearize rgb.2.1 * 100 * 0.3576 +
      linearize rgb.2.2 * 100 * 0.1805,
    linearize rgb.1 * 100 * 0.2126 + linearize rgb.2.1 * 100 * 0.7152 +
      linearize rgb.2.2 * 100 * 0.0722,
    linearize rgb.1 * 100 * 0.0193 + linearize rgb.2.1 * 100 * 0.1192 +
      linearize rgb.2.2 * 100 * 0.9505)

/-- Lines 98-101 of `framemaker.py`: the piecewise XYZ-to-Lab transfer
applied to a channel already normalised by the reference white. -/
noncomputable def labF (v : ℝ) : ℝ :=
  if v > 0.008856 then v ^ ((1 : ℝ) / 3) else v * 7.787 + 16 / 116

/-- Lines 93-107 of `framemaker.py`: normalise by the D65 reference white
`(95.047, 100.0, 108.883)`, apply `labF`, and form `(L, a, b)`. -/
noncomputable def xyz2lab (xyz : ℝ × ℝ × ℝ) : ℝ × ℝ × ℝ :=
  (116.0 * labF (xyz.2.1 / 100.0) - 16.0,
    500.0 * (labF (xyz.1 / 95.047) - labF (xyz.2.1 / 100.0)),
    200.0 * (labF (xyz.2.1 / 100.0) - labF (xyz.2.2 / 108.883)))

/-- Lines 110-111 of `framemaker.py`. -/
noncomputable def rgb2lab (rgb : ℝ × ℝ × ℝ) : ℝ × ℝ × ℝ := xyz2lab (rgb2xyz rgb)

/-- `np.linalg.norm(pixel - chroma)` over the three Lab channels (line 50
of `framemaker.py`): the Euclidean distance in Lab space. -/
noncomputable def labDist (p q : Lab) : ℝ :=
  Real.sqrt ((p.1 - q.1) ^ 2 + (p.2.1 - q.2.1) ^ 2 + (p.2.2 - q.2.2) ^ 2)

/-- Lines 49-53 of `framemaker.py`: `chroma_mask = norms < chroma_pct`.
A pixel is marked background iff its Lab distance to the reference sample
is strictly below the threshold. -/
noncomputable def segment (buf : List (List Lab)) (ref : Lab) (t : ℝ) :
    List (List Bool) :=
  buf.map (fun row => row.map (fun p => if labDist p ref < t then true else false))

/-- Pixel lookup in a row-major buffer. -/
def pixAt {α : Type _} (buf : List (List α)) (i j : Nat) : Option α :=
  buf[i]?.bind (fun row => row[j]?)

/-- C8: a pixel is marked background iff its Euclidean Lab distance to the
reference sample is strictly less than the threshold; with threshold 0 no
pixel is ever marked; a pixel whose Lab value equals the reference sample
is marked whenever the threshold is positive. -/
theorem segment_rule (buf : List (List Lab)) (ref : Lab) (t : ℝ) (i j : Nat)
    (pix : Lab) (hp : pixAt buf i j = some pix) :
    (pixAt (segment buf ref t) i j = some true ↔ labDist pix ref < t) ∧
    (t = 0 → pixAt (segment buf ref t) i j = some false) ∧
    (pix = ref → 0 < t → pixAt (segment buf ref t) i j = some true) := by
  have hmask : pixAt (segment buf ref t) i j
      = some (if labDist pix ref < t then true else false) := by
    unfold pixAt at hp ⊢
    unfold segment
    rcases hbi : buf[i]? with _ | row
    · rw [hbi] at hp
      simp at hp
    · rw [hbi] at hp
      simp only [Option.some_bind] at hp
      rw [List.getElem?_map, hbi]
      simp only [Option.map_some', Option.some_bind]
      rw [List.getElem?_map, hp]
      rfl
  rw [hmask]
  refine ⟨⟨?_, ?_⟩, ?_, ?_⟩
  · intro h
    by_contra hd
    rw [if_neg hd] at h
    exact Bool.false_ne_true (Option.some.inj h)
  · intro hd
    rw [if_pos hd]
  · intro ht
    rw [ht]
    have h0 : ¬ labDist pix ref < 0 := not_lt.mpr (by
      unfold labDist
      exact Real.sqrt_nonneg _)
    rw [if_neg h0]
  · intro hpe ht
    have hz : labDist pix ref = 0 := by
      rw [hpe]
      unfold labDist
      simp
    rw [if_pos (by rw [hz]; exact ht)]

theorem segment_rule_witness :
    pixAt (segment [[((0 : ℝ), 0, 0)]] ((0 : ℝ), 0, 0) 1) 0 0 = some true :=
  (segment_rule [[((0 : ℝ), 0, 0)]] ((0 : ℝ), 0, 0) 1 0 0 ((0 : ℝ), 0, 0)
    rfl).2.2 rfl one_pos

/-! ### The Lab fixed points of pure white and pure black -/

lemma cube_root_lt {x c : ℝ} (hx : 0 ≤ x) (hc : 0 ≤ c) (h : x < c ^ (3 : Nat)) :
    x ^ ((1 : ℝ) / 3) < c := by
  have h1 : x ^ ((1 : ℝ) / 3) < (c ^ (3 : Nat)) ^ ((1 : ℝ) / 3) :=
    Real.rpow_lt_rpow hx h (by norm_num)
  have h2 : ((c ^ (3 : Nat)) : ℝ) ^ ((1 : ℝ) / 3) = c := by
    rw [← Real.rpow_natCast c 3, ← Real.rpow_mul hc]
    norm_num
  rwa [h2] at h1

lemma lt_cube_root {x c : ℝ} (hc : 0 ≤ c) (h : c ^ (3 : Nat) < x) :
    c < x ^ ((1 : ℝ) / 3) := by
  have h1 : ((c ^ (3 : Nat)) : ℝ) ^ ((1 : ℝ) / 3) < x ^ ((1 : ℝ) / 3) :=
    Real.rpow_lt_rpow (by positivity) h (by norm_num)
  have h2 : ((c ^ (3 : Nat)) : ℝ) ^ ((1 : ℝ) / 3) = c := by
    rw [← Real.rpow_natCast c 3, ← Real.rpow_mul hc]
    norm_num
  rwa [h2] at h1

lemma linearize_255 : linearize 255 = 1 := by
  unfold linearize
  rw [if_pos (by norm_num)]
  rw [show ((255 : ℝ) / 255 + 0.055) / 1.055 = 1 by norm_num, Real.one_rpow]

lemma linearize_0 : linearize 0 = 0 := by
  unfold linearize
  rw [if_neg (by norm_num)]
  norm_num

lemma rgb2xyz_white : rgb2xyz ((255 : ℝ), 255, 255) = (95.05, 100, 108.9) := by
  unfold rgb2xyz
  norm_num [linearize_255, Prod.ext_iff]

lemma rgb2xyz_black : rgb2xyz ((0 : ℝ), 0, 0) = (0, 0, 0) := by
  unfold rgb2xyz
  norm_num [linearize_0, Prod.ext_iff]

lemma labF_one : labF ((100 : ℝ) / 100.0) = 1 := by
  unfold labF
  rw [if_pos (by norm_num)]
  rw [show ((100 : ℝ) / 100.0) = 1 by norm_num, Real.one_rpow]

lemma labF_zero_arg {d : ℝ} (_hd : 0 < d) : labF (0 / d) = 16 / 116 := by
  unfold labF
  rw [zero_div, if_neg (by norm_num)]
  norm_num

lemma fx_bounds : 1 < labF ((95.05 : ℝ) / 95.047) ∧
    labF ((95.05 : ℝ) / 95.047) < 1.00002 := by
  unfold labF
  rw [if_pos (by norm_num)]
  constructor
  · exact lt_cube_root (by norm_num) (by norm_num)
  · exact cube_root_lt (by norm_num) (by norm_num) (by norm_num)

lemma fz_bounds : 1.00005 < labF ((108.9 : ℝ) / 108.883) ∧
    labF ((108.9 : ℝ) / 108.883) < 1.000055 := by
  unfold labF
  rw [if_pos (by norm_num)]
  constructor
  · exact lt_cube_root (by norm_num) (by norm_num)
  · exact cube_root_lt (by norm_num) (by norm_num) (by norm_num)

lemma rgb2lab_white_eq : rgb2lab ((255 : ℝ), 255, 255)
    = (100, 500 * (labF ((95.05 : ℝ) / 95.047) - 1),
       200 * (1 - labF ((108.9 : ℝ) / 108.883))) := by
  unfold rgb2lab
  rw [rgb2xyz_white]
  unfold xyz2lab
  dsimp only
  rw [labF_one]
  norm_num [Prod.ext_iff]

/-- C9, counterexample to the stated tolerance: the b channel of pure
white under this conversion is about `-0.0104`, which is NOT within
`1e-2` of 0.  (The code's XYZ of white is `(95.05, 100, 108.9)` while the
reference white is `(95.047, 100, 108.883)`; the Z mismatch is large
enough to push `b` just past the tolerance.) -/
theorem rgb2lab_white_b_exceeds_tol :
    ¬ |(rgb2lab ((255 : ℝ), 255, 255)).2.2| ≤ 1 / 100 := by
  rw [rgb2lab_white_eq]
  obtain ⟨hlo, hhi⟩ := fz_bounds
  intro habs
  have h1 : (200 : ℝ) * (1 - labF ((108.9 : ℝ) / 108.883)) < -(1 / 100) := by
    nlinarith
  have h2 := neg_le_of_abs_le habs
  simp only at h2
  nlinarith

/-- C9, amended: pure white maps to `L = 100` exactly, `a` within `1e-2`
of 0, and `b` within `1.1e-2` of 0 (the original `1e-2` bound fails for
`b`, which is about `-0.0104`); pure black maps to exactly `(0, 0, 0)`. -/
theorem rgb2lab_fixed_points :
    (rgb2lab ((255 : ℝ), 255, 255)).1 = 100 ∧
    |(rgb2lab ((255 : ℝ), 255, 255)).2.1| ≤ 1 / 100 ∧
    |(rgb2lab ((255 : ℝ), 255, 255)).2.2| ≤ 11 / 1000 ∧
    rgb2lab ((0 : ℝ), 0, 0) = (0, 0, 0) := by
  refine ⟨?_, ?_, ?_, ?_⟩
  · rw [rgb2lab_white_eq]
  · rw [rgb2lab_white_eq]
    obtain ⟨hlo, hhi⟩ := fx_bounds
    rw [abs_le]
    constructor <;> nlinarith
  · rw [rgb2lab_white_eq]
    obtain ⟨hlo, hhi⟩ := fz_bounds
    rw [abs_le]
    constructor <;> nlinarith
  · unfold rgb2lab
    rw [rgb2xyz_black]
    unfold xyz2lab
    dsimp only
    rw [labF_zero_arg (by norm_num : (0 : ℝ) < 95.047),
      labF_zero_arg (by norm_num : (0 : ℝ) < 100.0),
      labF_zero_arg (by norm_num : (0 : ℝ) < 108.883)]
    norm_num [Prod.ext_iff]

end Framemaker
